import Mathlib

/-!
Shallow embedding of the metastego codec (src/src/main.rs).

Carriers and payloads are `List Nat` whose elements play the role of `u8`
(values below 256) and offsets play the role of `u32` (values below 2^32).
Every definition mirrors the corresponding Rust function; where the Rust code
can panic (out-of-bounds slice index), the embedding makes the panic an
explicit outcome rather than an error value.
-/

set_option maxRecDepth 100000

namespace Metastego

/-- The `u32` modulus: `buf.len() as u32` truncates modulo this constant. -/
def U32 : Nat := 4294967296

/-- Index of the first element of `l` equal to `byte`, scanning front to back.
Models the inner `for offset in 0..buflen` loop of `create_oracle`, which
returns the first offset whose carrier byte equals the candidate value. -/
def firstIdx (byte : Nat) : List Nat → Option Nat
  | [] => none
  | b :: rest => if b = byte then some 0 else (firstIdx byte rest).map (· + 1)

/-- The scan performed by `create_oracle` for one candidate byte value: the
loop runs over offsets `0..buflen` where `buflen = buf.len() as u32`, i.e.
the length truncated to 32 bits, so only the prefix of that length is seen. -/
def firstOffset (buf : List Nat) (byte : Nat) : Option Nat :=
  firstIdx byte (buf.take (buf.length % U32))

/-- Lookup in the oracle, modelling `HashMap::get` on an association list
whose keys are distinct. -/
def oracleGet (oracle : List (Nat × Nat)) (b : Nat) : Option Nat :=
  match oracle with
  | [] => none
  | (k, v) :: rest => if k = b then some v else oracleGet rest b

/-- The outer loop of `create_oracle`, run for candidate byte values
`0, 1, ..., n-1` in ascending order; the first value with no offset aborts
the whole construction with that value as the error. -/
def oracleLoop (buf : List Nat) : Nat → Except Nat (List (Nat × Nat))
  | 0 => .ok []
  | n + 1 =>
    match oracleLoop buf n with
    | .error e => .error e
    | .ok m =>
      match firstOffset buf n with
      | some off => .ok (m ++ [(n, off)])
      | none => .error n

/-- Rust `create_oracle`: map each byte value `0..=255` to the offset of its
first occurrence in the carrier, or fail with the first value not found. -/
def create_oracle (buf : List Nat) : Except Nat (List (Nat × Nat)) :=
  oracleLoop buf 256

/-- Rust `metasteg_encode`: translate each payload byte through the oracle,
failing with the first byte that has no oracle entry. -/
def metasteg_encode (payload : List Nat) (oracle : List (Nat × Nat)) :
    Except Nat (List Nat) :=
  match payload with
  | [] => .ok []
  | b :: rest =>
    match oracleGet oracle b with
    | none => .error b
    | some off =>
      match metasteg_encode rest oracle with
      | .error e => .error e
      | .ok tail => .ok (off :: tail)

/-- Outcome of `metasteg_decode`: a decoded byte list, a returned error
offset, or a Rust panic (out-of-bounds index `buf[offset]`). -/
inductive DecodeResult where
  | ok (bytes : List Nat)
  | err (offset : Nat)
  | panic
deriving DecidableEq, Repr

/-- Rust `metasteg_decode`: for each offset, the code first checks
`offset > buf.len()` (strictly greater, NOT greater-or-equal) and returns the
offset as an error if so; otherwise it indexes `buf[offset]`, which panics
when `offset = buf.len()`. -/
def metasteg_decode (payload : List Nat) (buf : List Nat) : DecodeResult :=
  match payload with
  | [] => .ok []
  | off :: rest =>
    if buf.length < off then .err off
    else
      match buf[off]? with
      | none => .panic
      | some b =>
        match metasteg_decode rest buf with
        | .ok tail => .ok (b :: tail)
        | r => r

/-- Rust `u32::to_be_bytes`: the four bytes of `x`, most significant first. -/
def to_be_bytes (x : Nat) : List Nat :=
  [x / 2 ^ 24 % 256, x / 2 ^ 16 % 256, x / 2 ^ 8 % 256, x % 256]

/-- Rust `u32::from_be_bytes` on four byte values. -/
def from_be_bytes (b0 b1 b2 b3 : Nat) : Nat :=
  b0 * 2 ^ 24 + b1 * 2 ^ 16 + b2 * 2 ^ 8 + b3

/-- The serialization loop of `encode_file`: each offset is written as its
four big-endian bytes, concatenated in order, with no header or padding. -/
def serialize (offsets : List Nat) : List Nat :=
  match offsets with
  | [] => []
  | off :: rest => to_be_bytes off ++ serialize rest

/-- The chunking loop of `decode_file`: consume the input four bytes at a
time, turning each group into a big-endian `u32`. Only reached on inputs
whose length is a multiple of four. -/
def deserializeLoop : List Nat → List Nat
  | b0 :: b1 :: b2 :: b3 :: rest => from_be_bytes b0 b1 b2 b3 :: deserializeLoop rest
  | _ => []

/-- The deserialization step of `decode_file`: reject inputs whose length is
not a multiple of four, reporting that length; otherwise chunk the input. -/
def deserialize (bytes : List Nat) : Except Nat (List Nat) :=
  if bytes.length % 4 ≠ 0 then .error bytes.length
  else .ok (deserializeLoop bytes)

/-- Spec-side formulation of deserialization (for the refinement claim):
split the input into consecutive 4-byte chunks in order — chunk `k` occupies
indices `4k..4k+3` — and reinterpret each as a big-endian `u32`. -/
def specChunks (bytes : List Nat) : List Nat :=
  (List.range (bytes.length / 4)).map fun k =>
    from_be_bytes (bytes.getD (4 * k) 0) (bytes.getD (4 * k + 1) 0)
      (bytes.getD (4 * k + 2) 0) (bytes.getD (4 * k + 3) 0)

/-- The oracle produced for the identity carrier `[0, 1, ..., 255]`: each
byte value maps to itself. -/
def oracle256 : List (Nat × Nat) :=
  (List.range 256).map fun v => (v, v)

/-- A carrier longer than `2^32` whose final 256 bytes contain every byte
value, while the 32-bit-truncated prefix seen by `create_oracle` is all
zeros. -/
def bigCarrier : List Nat :=
  List.replicate U32 0 ++ List.range 256

/-! ### Lemmas about the first-occurrence scan -/

theorem firstIdx_isSome_iff (byte : Nat) (l : List Nat) :
    (firstIdx byte l).isSome ↔ byte ∈ l := by
  induction l with
  | nil => simp [firstIdx]
  | cons b rest ih =>
    by_cases hb : b = byte
    · subst hb; simp [firstIdx]
    · simp [firstIdx, hb, ih, Option.isSome_map]
      exact fun h => (hb h.symm).elim

theorem firstIdx_eq_some (byte : Nat) (l : List Nat) (i : Nat)
    (h : firstIdx byte l = some i) :
    l[i]? = some byte ∧ ∀ j < i, l[j]? ≠ some byte := by
  induction l generalizing i with
  | nil => simp [firstIdx] at h
  | cons b rest ih =>
    by_cases hb : b = byte
    · subst hb
      simp [firstIdx] at h
      subst h
      exact ⟨by simp, fun j hj => absurd hj (Nat.not_lt_zero j)⟩
    · simp only [firstIdx, if_neg hb] at h
      match hrest : firstIdx byte rest with
      | none => rw [hrest] at h; simp at h
      | some k =>
        rw [hrest] at h
        simp at h
        subst h
        obtain ⟨h1, h2⟩ := ih k hrest
        refine ⟨by simpa using h1, ?_⟩
        intro j hj
        match j with
        | 0 => simpa using fun hb2 => hb hb2
        | j + 1 =>
          simp only [List.getElem?_cons_succ]
          exact h2 j (Nat.lt_of_succ_lt_succ hj)

theorem firstIdx_replicate_ne (byte a n : Nat) (h : byte ≠ a) :
    firstIdx byte (List.replicate n a) = none := by
  induction n with
  | zero => simp [firstIdx]
  | succ k ih =>
    rw [List.replicate_succ]
    simp only [firstIdx, ih]
    rw [if_neg fun hb => h hb.symm]
    simp

theorem firstOffset_of_lt (buf : List Nat) (byte : Nat) (h : buf.length < U32) :
    firstOffset buf byte = firstIdx byte buf := by
  rw [firstOffset, Nat.mod_eq_of_lt h, List.take_length]

/-! ### Lemmas about oracle lookup and construction -/

theorem oracleGet_append (l₁ l₂ : List (Nat × Nat)) (b : Nat) :
    oracleGet (l₁ ++ l₂) b =
      match oracleGet l₁ b with
      | some v => some v
      | none => oracleGet l₂ b := by
  induction l₁ with
  | nil => simp [oracleGet]
  | cons kv rest ih =>
    obtain ⟨k, v⟩ := kv
    by_cases hk : k = b
    · simp [oracleGet, hk]
    · simp [oracleGet, hk, ih]

theorem oracleLoop_ok_of (buf : List Nat) (n : Nat)
    (h : ∀ v < n, (firstOffset buf v).isSome) :
    ∃ m, oracleLoop buf n = .ok m := by
  induction n with
  | zero => exact ⟨[], rfl⟩
  | succ k ih =>
    obtain ⟨m, hm⟩ := ih fun v hv => h v (Nat.lt_succ_of_lt hv)
    have hk := h k (Nat.lt_succ_self k)
    match hoff : firstOffset buf k with
    | none => rw [hoff] at hk; simp at hk
    | some off => exact ⟨m ++ [(k, off)], by simp [oracleLoop, hm, hoff]⟩

theorem oracleLoop_ok_forall (buf : List Nat) (n : Nat) (m : List (Nat × Nat))
    (h : oracleLoop buf n = .ok m) :
    ∀ v < n, (firstOffset buf v).isSome := by
  induction n generalizing m with
  | zero => intro v hv; exact absurd hv (Nat.not_lt_zero v)
  | succ k ih =>
    simp only [oracleLoop] at h
    match hprev : oracleLoop buf k with
    | .error e => rw [hprev] at h; simp at h
    | .ok m0 =>
      rw [hprev] at h
      match hoff : firstOffset buf k with
      | none => rw [hoff] at h; simp at h
      | some off =>
        intro v hv
        rcases Nat.lt_succ_iff_lt_or_eq.mp hv with hlt | heq
        · exact ih m0 hprev v hlt
        · subst heq; simp [hoff]

theorem oracleLoop_ok_get (buf : List Nat) (n : Nat) (m : List (Nat × Nat))
    (h : oracleLoop buf n = .ok m) :
    ∀ v, oracleGet m v = if v < n then firstOffset buf v else none := by
  induction n generalizing m with
  | zero =>
    simp only [oracleLoop] at h
    cases h
    intro v
    simp [oracleGet]
  | succ k ih =>
    simp only [oracleLoop] at h
    match hprev : oracleLoop buf k with
    | .error e => rw [hprev] at h; simp at h
    | .ok m0 =>
      rw [hprev] at h
      match hoff : firstOffset buf k with
      | none => rw [hoff] at h; simp at h
      | some off =>
        rw [hoff] at h
        simp only [Except.ok.injEq] at h
        subst h
        intro v
        rw [oracleGet_append]
        have hget := ih m0 hprev v
        by_cases hvk : v < k
        · rw [hget, if_pos hvk, if_pos (Nat.lt_succ_of_lt hvk)]
          cases hfv : firstOffset buf v with
          | some w => rfl
          | none => simp [oracleGet]; omega
        · by_cases hveq : v = k
          · subst hveq
            simp [hget, hvk, oracleGet, hoff, Nat.lt_succ_self]
          · have hns : ¬ v < k + 1 := by omega
            simp only [hget, if_neg hvk, if_neg hns, oracleGet]
            rw [if_neg fun hb => hveq hb.symm]

theorem oracleLoop_error (buf : List Nat) (n : Nat) (e : Nat)
    (h : oracleLoop buf n = .error e) :
    e < n ∧ firstOffset buf e = none ∧ ∀ w < e, (firstOffset buf w).isSome := by
  induction n with
  | zero => simp [oracleLoop] at h
  | succ k ih =>
    simp only [oracleLoop] at h
    match hprev : oracleLoop buf k with
    | .error e0 =>
      rw [hprev] at h
      simp at h
      subst h
      obtain ⟨h1, h2, h3⟩ := ih hprev
      exact ⟨Nat.lt_succ_of_lt h1, h2, h3⟩
    | .ok m0 =>
      rw [hprev] at h
      match hoff : firstOffset buf k with
      | some off => rw [hoff] at h; simp at h
      | none =>
        rw [hoff] at h
        simp at h
        subst h
        refine ⟨by omega, ?_, ?_⟩
        · exact hoff
        · exact oracleLoop_ok_forall buf _ m0 hprev

theorem oracleLoop_error_of (buf : List Nat) (n e : Nat) (he : e < n)
    (hnone : firstOffset buf e = none)
    (hbelow : ∀ w < e, (firstOffset buf w).isSome) :
    oracleLoop buf n = .error e := by
  cases h : oracleLoop buf n with
  | ok m =>
    have hs := oracleLoop_ok_forall buf n m h e he
    rw [hnone] at hs
    simp at hs
  | error e2 =>
    obtain ⟨h1, h2, h3⟩ := oracleLoop_error buf n e2 h
    have heq : e2 = e := by
      rcases Nat.lt_trichotomy e2 e with hlt | heq | hgt
      · have hs := hbelow e2 hlt
        rw [h2] at hs
        simp at hs
      · exact heq
      · have hs := h3 e hgt
        rw [hnone] at hs
        simp at hs
    rw [heq]

/-! ### Lemmas about encoding and decoding -/

theorem metasteg_encode_ok (p : List Nat) (o : List (Nat × Nat)) (e : List Nat)
    (h : metasteg_encode p o = .ok e) :
    e.length = p.length ∧ ∀ i : Nat, e[i]? = (p[i]?).bind (oracleGet o) := by
  induction p generalizing e with
  | nil =>
    simp only [metasteg_encode] at h
    cases h
    simp
  | cons b rest ih =>
    simp only [metasteg_encode] at h
    match hb : oracleGet o b with
    | none => rw [hb] at h; simp at h
    | some off =>
      rw [hb] at h
      match hrest : metasteg_encode rest o with
      | .error x => rw [hrest] at h; simp at h
      | .ok tail =>
        rw [hrest] at h
        simp only [Except.ok.injEq] at h
        subst h
        obtain ⟨h1, h2⟩ := ih tail hrest
        refine ⟨by simp [h1], ?_⟩
        intro i
        match i with
        | 0 => simp [hb]
        | i + 1 => simp [h2 i]

theorem metasteg_encode_total (p : List Nat) (o : List (Nat × Nat))
    (h : ∀ b ∈ p, (oracleGet o b).isSome) :
    ∃ e, metasteg_encode p o = .ok e := by
  induction p with
  | nil => exact ⟨[], rfl⟩
  | cons b rest ih =>
    obtain ⟨e, he⟩ := ih fun x hx => h x (List.mem_cons_of_mem b hx)
    have hb := h b (List.mem_cons_self b rest)
    match hob : oracleGet o b with
    | none => rw [hob] at hb; simp at hb
    | some off => exact ⟨off :: e, by simp [metasteg_encode, hob, he]⟩

theorem metasteg_decode_ok (po : List Nat) (buf : List Nat) (d : List Nat)
    (h : metasteg_decode po buf = .ok d) :
    d.length = po.length ∧ ∀ i : Nat, d[i]? = (po[i]?).bind fun off => buf[off]? := by
  induction po generalizing d with
  | nil =>
    simp only [metasteg_decode] at h
    cases h
    simp
  | cons off rest ih =>
    simp only [metasteg_decode] at h
    by_cases hlt : buf.length < off
    · rw [if_pos hlt] at h; simp at h
    · rw [if_neg hlt] at h
      match hidx : buf[off]? with
      | none => rw [hidx] at h; simp at h
      | some b =>
        rw [hidx] at h
        match hrest : metasteg_decode rest buf with
        | .err x => rw [hrest] at h; simp at h
        | .panic => rw [hrest] at h; simp at h
        | .ok tail =>
          rw [hrest] at h
          simp only [DecodeResult.ok.injEq] at h
          subst h
          obtain ⟨h1, h2⟩ := ih tail hrest
          refine ⟨by simp [h1], ?_⟩
          intro i
          match i with
          | 0 => simp [hidx]
          | i + 1 => simp [h2 i]

theorem encode_decode_roundtrip (p : List Nat) (buf : List Nat)
    (m : List (Nat × Nat)) (hp : ∀ b ∈ p, b < 256)
    (hlook : ∀ b < 256, ∃ off, oracleGet m b = some off ∧ buf[off]? = some b) :
    ∃ e, metasteg_encode p m = .ok e ∧ metasteg_decode e buf = .ok p := by
  induction p with
  | nil => exact ⟨[], rfl, rfl⟩
  | cons b rest ih =>
    obtain ⟨e, he, hd⟩ := ih fun x hx => hp x (List.mem_cons_of_mem b hx)
    obtain ⟨off, hoff, hbuf⟩ := hlook b (hp b (List.mem_cons_self b rest))
    have hofflt : off < buf.length := by
      rcases List.getElem?_eq_some_iff.mp hbuf with ⟨hw, _⟩
      exact hw
    refine ⟨off :: e, ?_, ?_⟩
    · simp [metasteg_encode, hoff, he]
    · simp only [metasteg_decode]
      rw [if_neg (by omega), hbuf, hd]

/-! ### Lemmas about the binary framing -/

theorem serialize_length (O : List Nat) : (serialize O).length = 4 * O.length := by
  induction O with
  | nil => simp [serialize]
  | cons x rest ih =>
    simp [serialize, to_be_bytes, ih]
    ring

theorem from_to_be_bytes (x : Nat) (h : x < U32) :
    from_be_bytes (x / 2 ^ 24 % 256) (x / 2 ^ 16 % 256) (x / 2 ^ 8 % 256) (x % 256)
      = x := by
  simp only [from_be_bytes, U32] at *
  norm_num at *
  omega

theorem deserialize_serialize (O : List Nat) (h : ∀ x ∈ O, x < U32) :
    deserialize (serialize O) = .ok O := by
  have hloop : deserializeLoop (serialize O) = O := by
    induction O with
    | nil => rfl
    | cons x rest ih =>
      have hx := h x (List.mem_cons_self x rest)
      simp only [serialize, to_be_bytes, List.cons_append, List.nil_append,
        deserializeLoop, List.append_eq]
      rw [from_to_be_bytes x hx, ih fun y hy => h y (List.mem_cons_of_mem x hy)]
  rw [deserialize, if_neg (by simp [serialize_length])]
  rw [hloop]

theorem deserializeLoop_eq_specChunks :
    ∀ bytes : List Nat, bytes.length % 4 = 0 → deserializeLoop bytes = specChunks bytes
  | [], _ => by simp [deserializeLoop, specChunks]
  | [b0], h => by simp at h
  | [b0, b1], h => by simp at h
  | [b0, b1, b2], h => by simp at h
  | b0 :: b1 :: b2 :: b3 :: rest, h => by
    have hrest : rest.length % 4 = 0 := by
      simp only [List.length_cons] at h
      omega
    have ih := deserializeLoop_eq_specChunks rest hrest
    simp only [deserializeLoop, ih, specChunks, List.length_cons]
    have hdiv : (rest.length + 1 + 1 + 1 + 1) / 4 = rest.length / 4 + 1 := by
      omega
    rw [hdiv, List.range_succ_eq_map, List.map_cons, List.map_map]
    congr 1

/-! ### Facts about the oversized carrier -/

theorem bigCarrier_length : bigCarrier.length = U32 + 256 := by
  simp [bigCarrier]

theorem bigCarrier_take :
    bigCarrier.take (bigCarrier.length % U32) = List.replicate 256 0 := by
  have hle : (256 : Nat) ≤ (List.replicate U32 0).length := by
    rw [List.length_replicate]
    norm_num [U32]
  have ht : (List.replicate U32 0 ++ List.range 256).take 256
      = (List.replicate U32 0).take 256 := List.take_append_of_le_length hle
  have h256 : (256 : Nat) % U32 = 256 := by norm_num [U32]
  have hmin : min 256 U32 = 256 := by norm_num [U32]
  rw [bigCarrier_length, Nat.add_mod_left, h256, bigCarrier, ht,
    List.take_replicate, hmin]

theorem firstOffset_bigCarrier_zero : firstOffset bigCarrier 0 = some 0 := by
  rw [firstOffset, bigCarrier_take]
  rw [show (256 : Nat) = 255 + 1 from rfl, List.replicate_succ]
  simp [firstIdx]

theorem firstOffset_bigCarrier_one : firstOffset bigCarrier 1 = none := by
  rw [firstOffset, bigCarrier_take]
  exact firstIdx_replicate_ne 1 0 256 (by omega)

theorem create_oracle_bigCarrier : create_oracle bigCarrier = .error 1 := by
  show oracleLoop bigCarrier 256 = .error 1
  apply oracleLoop_error_of bigCarrier 256 1 (by omega) firstOffset_bigCarrier_one
  intro w hw
  have hw0 : w = 0 := by omega
  rw [hw0, firstOffset_bigCarrier_zero]
  rfl

theorem mem_bigCarrier (v : Nat) (hv : v < 256) : v ∈ bigCarrier := by
  rw [bigCarrier]
  exact List.mem_append_right _ (List.mem_range.mpr hv)

/-- The identity carrier produces the identity oracle. -/
theorem create_oracle_range : create_oracle (List.range 256) = .ok oracle256 := by
  rfl

/-! ### Claim theorems -/

/-- Claim C1 (amended with the carrier-length bound forced by the 32-bit
truncation in the oracle scan): for every carrier shorter than `2^32` that
contains all 256 byte values and every payload of byte values, the oracle
builds successfully and decoding the encoding of the payload recovers it
exactly. -/
theorem c1_round_trip (buf p : List Nat) (hlen : buf.length < U32)
    (hall : ∀ v < 256, v ∈ buf) (hp : ∀ b ∈ p, b < 256) :
    ∃ m e, create_oracle buf = .ok m ∧ metasteg_encode p m = .ok e ∧
      metasteg_decode e buf = .ok p := by
  have hsome : ∀ v < 256, (firstOffset buf v).isSome := by
    intro v hv
    rw [firstOffset_of_lt buf v hlen, firstIdx_isSome_iff]
    exact hall v hv
  obtain ⟨m, hm⟩ := oracleLoop_ok_of buf 256 hsome
  have hget := oracleLoop_ok_get buf 256 m hm
  have hlook : ∀ b < 256, ∃ off, oracleGet m b = some off ∧ buf[off]? = some b := by
    intro b hb
    have h1 := hget b
    rw [if_pos hb] at h1
    have h2 := hsome b hb
    match hfo : firstOffset buf b with
    | none => rw [hfo] at h2; simp at h2
    | some off =>
      refine ⟨off, by rw [h1, hfo], ?_⟩
      rw [firstOffset_of_lt buf b hlen] at hfo
      exact (firstIdx_eq_some b buf off hfo).1
  obtain ⟨e, he, hd⟩ := encode_decode_roundtrip p buf m hp hlook
  exact ⟨m, e, hm, he, hd⟩

/-- Witness for C1 at the identity carrier and the payload "ABC". -/
theorem c1_round_trip_witness :
    (List.range 256).length < U32 ∧ (∀ v < 256, v ∈ List.range 256) ∧
      (∀ b ∈ [65, 66, 67], b < 256) ∧
      ∃ m e, create_oracle (List.range 256) = .ok m ∧
        metasteg_encode [65, 66, 67] m = .ok e ∧
        metasteg_decode e (List.range 256) = .ok [65, 66, 67] :=
  ⟨by norm_num [U32], fun v hv => List.mem_range.mpr hv, by decide,
    c1_round_trip (List.range 256) [65, 66, 67] (by norm_num [U32])
      (fun v hv => List.mem_range.mpr hv) (by decide)⟩

/-- Counterexample to C1 as stated: a carrier of length `2^32 + 256` that
contains all 256 byte values, yet whose oracle construction fails (the
32-bit-truncated scan sees only zeros), so no payload round-trips. -/
theorem c1_counterexample :
    (∀ v < 256, v ∈ bigCarrier) ∧
      ¬ ∃ m e, create_oracle bigCarrier = .ok m ∧ metasteg_encode [0] m = .ok e ∧
        metasteg_decode e bigCarrier = .ok [0] := by
  refine ⟨mem_bigCarrier, ?_⟩
  rintro ⟨m, e, hm, -, -⟩
  rw [create_oracle_bigCarrier] at hm
  simp at hm

/-- Claim C2 (code evaluated at the failing boundary input): for the carrier
of length 3, the decoder panics on offset 3 instead of returning the error
the spec requires; offsets strictly greater than the length do return an
error, and offset length-1 decodes successfully. -/
theorem c2_boundary_behavior :
    metasteg_decode [3] [10, 20, 30] = .panic ∧
      metasteg_decode [4] [10, 20, 30] = .err 4 ∧
      metasteg_decode [2] [10, 20, 30] = .ok [30] :=
  ⟨rfl, rfl, rfl⟩

/-- Claim C3 (amended with the carrier-length bound forced by the 32-bit
truncation in the oracle scan): for every carrier shorter than `2^32`,
oracle construction succeeds iff every byte value 0-255 occurs in the
carrier, and on failure the reported value is absent while every smaller
value is present. -/
theorem c3_completeness (buf : List Nat) (hlen : buf.length < U32) :
    ((∃ m, create_oracle buf = .ok m) ↔ ∀ v < 256, v ∈ buf) ∧
      ∀ e, create_oracle buf = .error e → e ∉ buf ∧ ∀ w < e, w ∈ buf := by
  constructor
  · constructor
    · rintro ⟨m, hm⟩ v hv
      have hs := oracleLoop_ok_forall buf 256 m hm v hv
      rwa [firstOffset_of_lt buf v hlen, firstIdx_isSome_iff] at hs
    · intro hall
      apply oracleLoop_ok_of buf 256
      intro v hv
      rw [firstOffset_of_lt buf v hlen, firstIdx_isSome_iff]
      exact hall v hv
  · intro e he
    obtain ⟨h1, h2, h3⟩ := oracleLoop_error buf 256 e he
    constructor
    · intro hmem
      have hs : (firstOffset buf e).isSome := by
        rw [firstOffset_of_lt buf e hlen, firstIdx_isSome_iff]
        exact hmem
      rw [h2] at hs
      simp at hs
    · intro w hw
      have hs := h3 w hw
      rwa [firstOffset_of_lt buf w hlen, firstIdx_isSome_iff] at hs

/-- Witness for C3 at the identity carrier. -/
theorem c3_completeness_witness :
    (List.range 256).length < U32 ∧
      (((∃ m, create_oracle (List.range 256) = .ok m) ↔
          ∀ v < 256, v ∈ List.range 256) ∧
        ∀ e, create_oracle (List.range 256) = .error e →
          e ∉ List.range 256 ∧ ∀ w < e, w ∈ List.range 256) :=
  ⟨by norm_num [U32], c3_completeness (List.range 256) (by norm_num [U32])⟩

/-- Counterexample to C3 as stated: a carrier of length `2^32 + 256`
containing all 256 byte values on which construction nevertheless fails,
reporting value 1, which is present in the carrier. -/
theorem c3_counterexample :
    (∀ v < 256, v ∈ bigCarrier) ∧ 1 ∈ bigCarrier ∧
      create_oracle bigCarrier = .error 1 :=
  ⟨mem_bigCarrier, mem_bigCarrier 1 (by omega), create_oracle_bigCarrier⟩

/-- Claim C4: whenever oracle construction succeeds, every byte value below
256 is mapped to the smallest index of the carrier holding that value; in
particular the carrier at that index equals the value. -/
theorem c4_first_occurrence (buf : List Nat) (m : List (Nat × Nat)) (v : Nat)
    (hm : create_oracle buf = .ok m) (hv : v < 256) :
    ∃ off, oracleGet m v = some off ∧ buf[off]? = some v ∧
      ∀ j < off, buf[j]? ≠ some v := by
  have hget := oracleLoop_ok_get buf 256 m hm v
  rw [if_pos hv] at hget
  have hs := oracleLoop_ok_forall buf 256 m hm v hv
  match hfo : firstOffset buf v with
  | none => rw [hfo] at hs; simp at hs
  | some off =>
    have h2 := firstIdx_eq_some v (buf.take (buf.length % U32)) off hfo
    have hoffk : off < buf.length % U32 := by
      by_contra hno
      have hnone : (buf.take (buf.length % U32))[off]? = none := by
        rw [List.getElem?_take, if_neg hno]
      rw [hnone] at h2
      exact absurd h2.1 (by simp)
    refine ⟨off, by rw [hget, hfo], ?_, ?_⟩
    · have hsome := h2.1
      rwa [List.getElem?_take, if_pos hoffk] at hsome
    · intro j hj
      have hjk : j < buf.length % U32 := Nat.lt_trans hj hoffk
      have hne := h2.2 j hj
      rwa [List.getElem?_take, if_pos hjk] at hne

/-- Witness for C4 at the identity carrier and value 65. -/
theorem c4_first_occurrence_witness :
    create_oracle (List.range 256) = .ok oracle256 ∧ 65 < 256 ∧
      ∃ off, oracleGet oracle256 65 = some off ∧
        (List.range 256)[off]? = some 65 ∧
        ∀ j < off, (List.range 256)[j]? ≠ some 65 :=
  ⟨create_oracle_range, by omega,
    c4_first_occurrence (List.range 256) oracle256 65 create_oracle_range (by omega)⟩

/-- Claim C5: serializing a sequence of u32 offsets as 4 big-endian bytes
each and deserializing yields the sequence back. -/
theorem c5_framing_round_trip (O : List Nat) (h : ∀ x ∈ O, x < U32) :
    deserialize (serialize O) = .ok O :=
  deserialize_serialize O h

/-- Witness for C5 on a three-offset sequence including the largest u32. -/
theorem c5_framing_round_trip_witness :
    (∀ x ∈ [0, 65, 4294967295], x < U32) ∧
      deserialize (serialize [0, 65, 4294967295]) = .ok [0, 65, 4294967295] :=
  ⟨by decide, c5_framing_round_trip [0, 65, 4294967295] (by decide)⟩

/-- Claim C6: deserialization fails reporting the input length exactly when
that length is not a multiple of 4; otherwise it returns the input split
into consecutive 4-byte chunks, each read as a big-endian u32. -/
theorem c6_deserialize_spec (bytes : List Nat) :
    deserialize bytes =
      if bytes.length % 4 = 0 then .ok (specChunks bytes)
      else .error bytes.length := by
  by_cases h : bytes.length % 4 = 0
  · rw [if_pos h, deserialize, if_neg (not_not_intro h),
      deserializeLoop_eq_specChunks bytes h]
  · rw [if_neg h, deserialize, if_pos h]

/-- Claim C7: a successful encode has one offset per payload byte, the i-th
offset obtained from the i-th byte via the oracle; a successful decode has
one byte per offset, the i-th byte obtained by indexing the carrier at the
i-th offset. -/
theorem c7_length_preservation (p : List Nat) (o : List (Nat × Nat))
    (e : List Nat) (po buf d : List Nat)
    (he : metasteg_encode p o = .ok e) (hd : metasteg_decode po buf = .ok d) :
    (e.length = p.length ∧ ∀ i : Nat, e[i]? = (p[i]?).bind (oracleGet o)) ∧
      d.length = po.length ∧
      ∀ i : Nat, d[i]? = (po[i]?).bind fun off => buf[off]? :=
  ⟨metasteg_encode_ok p o e he, metasteg_decode_ok po buf d hd⟩

/-- Witness for C7 on singleton inputs. -/
theorem c7_length_preservation_witness :
    metasteg_encode [65] oracle256 = .ok [65] ∧
      metasteg_decode [65] (List.range 256) = .ok [65] ∧
      ((([65] : List Nat).length = ([65] : List Nat).length ∧
          ∀ i : Nat, ([65] : List Nat)[i]? =
            (([65] : List Nat)[i]?).bind (oracleGet oracle256)) ∧
        ([65] : List Nat).length = ([65] : List Nat).length ∧
        ∀ i : Nat, ([65] : List Nat)[i]? =
          (([65] : List Nat)[i]?).bind fun off => (List.range 256)[off]?) :=
  ⟨by rfl, by rfl,
    c7_length_preservation [65] oracle256 [65] [65] (List.range 256) [65]
      (by rfl) (by rfl)⟩

/-- Claim C8: against an oracle produced by a successful construction, the
encoder never takes its missing-entry error branch on a payload of byte
values. -/
theorem c8_encoder_totality (buf : List Nat) (m : List (Nat × Nat))
    (p : List Nat) (hm : create_oracle buf = .ok m)
    (hp : ∀ b ∈ p, b < 256) :
    ∃ e, metasteg_encode p m = .ok e := by
  apply metasteg_encode_total
  intro b hb
  have hget := oracleLoop_ok_get buf 256 m hm b
  rw [if_pos (hp b hb)] at hget
  rw [hget]
  exact oracleLoop_ok_forall buf 256 m hm b (hp b hb)

/-- Witness for C8 at the identity carrier and the payload "ABC". -/
theorem c8_encoder_totality_witness :
    create_oracle (List.range 256) = .ok oracle256 ∧
      (∀ b ∈ [65, 66, 67], b < 256) ∧
      ∃ e, metasteg_encode [65, 66, 67] oracle256 = .ok e :=
  ⟨create_oracle_range, by decide,
    c8_encoder_totality (List.range 256) oracle256 [65, 66, 67]
      create_oracle_range (by decide)⟩

/-- Claim C9: the end-to-end scenario on the identity carrier: the oracle is
the identity on all 256 values, "ABC" encodes to offsets 65, 66, 67, which
serialize to the stated 12 bytes, and deserializing and decoding those bytes
against the same carrier recovers "ABC". -/
theorem c9_scenario :
    create_oracle (List.range 256) = .ok oracle256 ∧
      ((List.range 256).all fun v => oracleGet oracle256 v == some v) = true ∧
      metasteg_encode [65, 66, 67] oracle256 = .ok [65, 66, 67] ∧
      serialize [65, 66, 67] = [0, 0, 0, 65, 0, 0, 0, 66, 0, 0, 0, 67] ∧
      deserialize [0, 0, 0, 65, 0, 0, 0, 66, 0, 0, 0, 67] = .ok [65, 66, 67] ∧
      metasteg_decode [65, 66, 67] (List.range 256) = .ok [65, 66, 67] :=
  ⟨create_oracle_range, by rfl, by rfl, by rfl, by rfl, by rfl⟩

/-- Claim C10: the empty payload encodes to the empty offset sequence under
any oracle, and the empty offset sequence decodes to the empty byte sequence
against any carrier. -/
theorem c10_empty_inputs (oracle : List (Nat × Nat)) (buf : List Nat) :
    metasteg_encode [] oracle = .ok [] ∧ metasteg_decode [] buf = .ok [] :=
  ⟨rfl, rfl⟩

end Metastego
